import Mathlib

/-!
Verification of the zeitstempel-react OpenTimestamps core.

This file is a shallow embedding of the TypeScript sources under
src/core (parser.ts, writer.ts, operations.ts, verify.ts, upgrade.ts,
stamp.ts, hex.ts, constants.ts) into Lean 4, together with theorems
about the embedded definitions.

Modelling conventions:
* A byte buffer (Uint8Array) is a `List Nat`; the parser only ever
  reads bytes produced by Uint8Array indexing, which are `< 256`, and
  the bit operations used (`&&& 0x7f`, `&&& 0x80`) are faithful for
  arbitrary `Nat` anyway.
* The internal `Cursor` over a buffer is modelled by passing the list
  of remaining bytes; every reader returns the parsed value together
  with the remaining bytes, in the `Except String` monad (thrown
  `ParseError`s become `Except.error` with the source's message text).
* JavaScript numbers: the source guards `readVaruint` so every
  accepted value is below 2^53, where JS number arithmetic is exact,
  so plain `Nat` arithmetic is a faithful model.
* Strings: URIs and hex strings are kept as their UTF-8 byte lists
  (the source's TextEncoder/TextDecoder round-trip is the identity on
  the byte level, and all hex characters are ASCII).
* Async: all source functions are `async` only because the hash
  oracle and HTTP are; hashes, block lookup and calendar fetches are
  modelled as explicit oracle parameters, and each `async` function
  becomes a pure function of those oracles.
-/

namespace Zeit

/-- Byte buffers (Uint8Array) as lists of naturals. -/
abbrev Bytes := List Nat

/-! ## constants.ts -/

/-- The 31-byte magic header every .ots file starts with. -/
def HEADER_MAGIC : Bytes :=
  [0x00, 0x4f, 0x70, 0x65, 0x6e, 0x54, 0x69, 0x6d,
   0x65, 0x73, 0x74, 0x61, 0x6d, 0x70, 0x73, 0x00,
   0x00, 0x50, 0x72, 0x6f, 0x6f, 0x66, 0x00, 0xbf,
   0x89, 0xe2, 0xe8, 0x84, 0xe8, 0x92, 0x94]

def TAG_APPEND : Nat := 0xf0
def TAG_PREPEND : Nat := 0xf1
def TAG_REVERSE : Nat := 0xf2
def TAG_HEXLIFY : Nat := 0xf3
def TAG_SHA1 : Nat := 0x02
def TAG_RIPEMD160 : Nat := 0x03
def TAG_SHA256 : Nat := 0x08
def TAG_KECCAK256 : Nat := 0x67

def TAG_ATTESTATION : Nat := 0x00
def TAG_FORK : Nat := 0xff

def ATT_TAG_BITCOIN : Bytes := [0x05, 0x88, 0x96, 0x0d, 0x73, 0xd7, 0x19, 0x01]
def ATT_TAG_LITECOIN : Bytes := [0x06, 0x86, 0x9a, 0x0d, 0x73, 0xd7, 0x1b, 0x45]
def ATT_TAG_ETHEREUM : Bytes := [0x30, 0xfe, 0x80, 0x87, 0xb5, 0xc7, 0xea, 0xd7]
def ATT_TAG_PENDING : Bytes := [0x83, 0xdf, 0xe3, 0x0d, 0x2e, 0xf9, 0x0c, 0x8e]

/-- The `HashOp` union type from constants.ts. -/
inductive HashOp where
  | sha256
  | sha1
  | ripemd160
  | keccak256
deriving DecidableEq, Repr

/-- `HASH_OP_DIGEST_LEN` record. -/
def HASH_OP_DIGEST_LEN : HashOp → Nat
  | .sha256 => 32
  | .sha1 => 20
  | .ripemd160 => 20
  | .keccak256 => 32

/-- `TAG_TO_HASH_OP` partial record: tag byte to hash op. -/
def TAG_TO_HASH_OP (tag : Nat) : Option HashOp :=
  if tag = TAG_SHA256 then some .sha256
  else if tag = TAG_SHA1 then some .sha1
  else if tag = TAG_RIPEMD160 then some .ripemd160
  else if tag = TAG_KECCAK256 then some .keccak256
  else none

/-- `HASH_OP_TO_TAG` record. -/
def HASH_OP_TO_TAG : HashOp → Nat
  | .sha256 => TAG_SHA256
  | .sha1 => TAG_SHA1
  | .ripemd160 => TAG_RIPEMD160
  | .keccak256 => TAG_KECCAK256

/-! ## types.ts -/

/-- The `Operation` discriminated union from types.ts. -/
inductive Operation where
  | append (data : Bytes)
  | prepend (data : Bytes)
  | sha256
  | sha1
  | ripemd160
  | keccak256
  | reverse
  | hexlify
deriving DecidableEq, Repr

/-- The `Attestation` discriminated union from types.ts.  The pending
URI is kept as its UTF-8 bytes (the source stores the TextDecoder
output; decode and encode compose to the identity on the bytes). -/
inductive Attestation where
  | bitcoin (height : Nat)
  | litecoin (height : Nat)
  | ethereum (height : Nat)
  | pending (uri : Bytes)
  | unknown (tag : Bytes) (payload : Bytes)
deriving DecidableEq, Repr

/-- The `Timestamp` tree node from types.ts: a list of attestations
plus a list of `(Operation, Timestamp)` continuations. -/
inductive Timestamp where
  | mk (attestations : List Attestation) (ops : List (Operation × Timestamp))

/-- Field accessor matching `ts.attestations`. -/
def Timestamp.attestations : Timestamp → List Attestation
  | .mk atts _ => atts

/-- Field accessor matching `ts.ops`. -/
def Timestamp.ops : Timestamp → List (Operation × Timestamp)
  | .mk _ ops => ops

/-- The `OtsFile` document root from types.ts. -/
structure OtsFile where
  hashOp : HashOp
  fileDigest : Bytes
  timestamp : Timestamp

/-! ## hex.ts -/

/-- `constantTimeEqual` from hex.ts: length check, then OR-fold of
bytewise XOR, compared to zero. -/
def constantTimeEqual (a b : Bytes) : Bool :=
  if a.length ≠ b.length then false
  else ((List.zipWith (fun x y => x ^^^ y) a b).foldl (fun r x => r ||| x) 0) == 0

/-- Character code of a lowercase hex digit, i.e. `HEX_CHARS[n]` from
hex.ts as its ASCII code. -/
def hexCharCode (n : Nat) : Nat :=
  if n < 10 then 48 + n else 87 + n

/-- `bytesToHex` from hex.ts, composed with the UTF-8 encoding of its
output (which is the identity on character codes because all hex
characters are ASCII): each byte contributes
`HEX_CHARS[b >> 4], HEX_CHARS[b & 0x0f]`. -/
def bytesToHexBytes (bytes : Bytes) : Bytes :=
  bytes.flatMap (fun b => [hexCharCode (b / 16), hexCharCode (b % 16)])

/-! ## parser.ts — Cursor readers -/

/-- `Cursor.readByte`: one byte or `ParseError('Unexpected end of file')`. -/
def readByteE (s : Bytes) : Except String (Nat × Bytes) :=
  match s with
  | [] => .error "Unexpected end of file"
  | b :: t => .ok (b, t)

/-- `Cursor.readBytes(n)`: exactly `n` bytes or end-of-file error. -/
def readBytesE : Nat → Bytes → Except String (Bytes × Bytes)
  | 0, s => .ok ([], s)
  | _ + 1, [] => .error "Unexpected end of file"
  | n + 1, b :: t =>
    match readBytesE n t with
    | .error e => .error e
    | .ok (xs, rest) => .ok (b :: xs, rest)

/-- The loop body of `Cursor.readVaruint`: `shift` and `value` are the
loop state; each byte contributes its low 7 bits at the current shift.
The two overflow guards are exactly the source's. -/
def readVaruintAux : Bytes → Nat → Nat → Except String (Nat × Bytes)
  | [], _, _ => .error "Unexpected end of file"
  | b :: t, shift, value =>
    let payload := b &&& 0x7f
    if 56 ≤ shift ∧ 0 < payload then .error "Varuint overflow"
    else if 49 ≤ shift ∧ 15 < payload then .error "Varuint overflow"
    else if b &&& 0x80 = 0 then .ok (value + payload * 2 ^ shift, t)
    else readVaruintAux t (shift + 7) (value + payload * 2 ^ shift)

/-- `Cursor.readVaruint`. -/
def readVaruint (s : Bytes) : Except String (Nat × Bytes) :=
  readVaruintAux s 0 0

/-- `Cursor.readVarbytes`: varuint length (capped at 1 MiB) then raw bytes. -/
def readVarbytes (s : Bytes) : Except String (Bytes × Bytes) :=
  match readVaruint s with
  | .error e => .error e
  | .ok (len, s) =>
    if len > 1048576 then .error "Varbytes length exceeds 1 MB"
    else readBytesE len s

/-! ## parser.ts — grammar -/

/-- `parseHashOp`. -/
def parseHashOp (tag : Nat) : Except String HashOp :=
  match TAG_TO_HASH_OP tag with
  | some op => .ok op
  | none => .error "Unknown hash operation tag"

/-- `varuintFromSlice`: read a varuint from a standalone slice,
ignoring any bytes after it. -/
def varuintFromSlice (data : Bytes) : Except String Nat :=
  match readVaruint data with
  | .error e => .error e
  | .ok (v, _) => .ok v

/-- `parseAttestation`: 8 tag bytes, a varbytes payload, then
classification.  For Pending the payload holds a nested varbytes whose
inner bytes are the URI. -/
def parseAttestation (s : Bytes) : Except String (Attestation × Bytes) :=
  match readBytesE 8 s with
  | .error e => .error e
  | .ok (tag, s) =>
    match readVarbytes s with
    | .error e => .error e
    | .ok (payload, s) =>
      if constantTimeEqual tag ATT_TAG_BITCOIN then
        match varuintFromSlice payload with
        | .error e => .error e
        | .ok h => .ok (.bitcoin h, s)
      else if constantTimeEqual tag ATT_TAG_LITECOIN then
        match varuintFromSlice payload with
        | .error e => .error e
        | .ok h => .ok (.litecoin h, s)
      else if constantTimeEqual tag ATT_TAG_ETHEREUM then
        match varuintFromSlice payload with
        | .error e => .error e
        | .ok h => .ok (.ethereum h, s)
      else if constantTimeEqual tag ATT_TAG_PENDING then
        match readVarbytes payload with
        | .error e => .error e
        | .ok (uriBytes, _) => .ok (.pending uriBytes, s)
      else .ok (.unknown tag payload, s)

/-- `parseOperation`: one tag byte, with a varbytes payload for
append/prepend. -/
def parseOperation (s : Bytes) : Except String (Operation × Bytes) :=
  match readByteE s with
  | .error e => .error e
  | .ok (tag, s) =>
    if tag = TAG_APPEND then
      match readVarbytes s with
      | .error e => .error e
      | .ok (d, s) => .ok (.append d, s)
    else if tag = TAG_PREPEND then
      match readVarbytes s with
      | .error e => .error e
      | .ok (d, s) => .ok (.prepend d, s)
    else if tag = TAG_REVERSE then .ok (.reverse, s)
    else if tag = TAG_HEXLIFY then .ok (.hexlify, s)
    else if tag = TAG_SHA256 then .ok (.sha256, s)
    else if tag = TAG_SHA1 then .ok (.sha1, s)
    else if tag = TAG_RIPEMD160 then .ok (.ripemd160, s)
    else if tag = TAG_KECCAK256 then .ok (.keccak256, s)
    else .error "Unknown operation tag"

def MAX_DEPTH : Nat := 256

/-- `parseTimestamp` together with its fork loop and
`parseTimestampBranch`, inlined into a single function so that the
recursion is structural on an explicit `fuel` argument.  `atts` and
`ops` are the accumulator arrays of the source; the source checks
`depth > MAX_DEPTH` once on entry and the depth is constant across the
fork loop, so re-checking it on every loop iteration (as here) is
equivalent.  The fuel only bounds the recursion depth of this
function; every recursive call is preceded by the consumption of at
least one byte, so a fuel of `remaining bytes + 1` can never run out
and the `"Parser fuel exhausted"` branch is unreachable from the entry
points below. -/
def parseTS : Nat → Bytes → Nat → List Attestation → List (Operation × Timestamp) →
    Except String (Timestamp × Bytes)
  | 0, _, _, _, _ => .error "Parser fuel exhausted"
  | fuel + 1, s, depth, atts, ops =>
    if depth > MAX_DEPTH then .error "Timestamp tree exceeds maximum depth"
    else
      match s with
      | [] => .ok (.mk atts ops, [])
      | b :: t =>
        if b = TAG_FORK then
          -- fork marker consumed; parse exactly one sibling branch, then loop
          match t with
          | [] => .error "Unexpected end of file"
          | b2 :: t2 =>
            if b2 = TAG_ATTESTATION then
              match parseAttestation t2 with
              | .error e => .error e
              | .ok (a, s2) => parseTS fuel s2 depth (atts ++ [a]) ops
            else
              match parseOperation (b2 :: t2) with
              | .error e => .error e
              | .ok (op, s1) =>
                match parseTS fuel s1 (depth + 1) [] [] with
                | .error e => .error e
                | .ok (child, s2) => parseTS fuel s2 depth atts (ops ++ [(op, child)])
        else
          -- final (non-forked) branch
          if b = TAG_ATTESTATION then
            match parseAttestation t with
            | .error e => .error e
            | .ok (a, s2) => .ok (.mk (atts ++ [a]) ops, s2)
          else
            match parseOperation (b :: t) with
            | .error e => .error e
            | .ok (op, s1) =>
              match parseTS fuel s1 (depth + 1) [] [] with
              | .error e => .error e
              | .ok (child, s2) => .ok (.mk atts (ops ++ [(op, child)]), s2)

/-- `parseTimestamp(c, depth)` on the remaining bytes `s`. -/
def parseTimestamp (s : Bytes) (depth : Nat) : Except String (Timestamp × Bytes) :=
  parseTS (s.length + 1) s depth [] []

/-- `parseTimestampFromBytes`: parse a standalone Timestamp region
(e.g. a calendar response). -/
def parseTimestampFromBytes (data : Bytes) : Except String Timestamp :=
  match parseTimestamp data 0 with
  | .error e => .error e
  | .ok (ts, _) => .ok ts

/-- `parseOts`: magic, version 1, hash tag, digest, then the tree. -/
def parseOts (data : Bytes) : Except String OtsFile :=
  match readBytesE HEADER_MAGIC.length data with
  | .error e => .error e
  | .ok (header, s) =>
    if ¬ constantTimeEqual header HEADER_MAGIC then
      .error "Not a valid .ots file (bad magic header)"
    else
      match readVaruint s with
      | .error e => .error e
      | .ok (version, s) =>
        if version ≠ 1 then .error "Unsupported .ots version"
        else
          match readByteE s with
          | .error e => .error e
          | .ok (tagByte, s) =>
            match parseHashOp tagByte with
            | .error e => .error e
            | .ok hashOp =>
              match readBytesE (HASH_OP_DIGEST_LEN hashOp) s with
              | .error e => .error e
              | .ok (fileDigest, s) =>
                match parseTimestamp s 0 with
                | .error e => .error e
                | .ok (timestamp, _) => .ok ⟨hashOp, fileDigest, timestamp⟩

/-! ## parser.ts — tree utilities -/

mutual

/-- `countAttestations`. -/
def countAttestations : Timestamp → Nat
  | .mk atts ops => atts.length + countAttestationsList ops

def countAttestationsList : List (Operation × Timestamp) → Nat
  | [] => 0
  | (_, child) :: rest => countAttestations child + countAttestationsList rest

end

mutual

/-- `hasPending` (parser.ts) / `hasPendingAttestation` (upgrade.ts):
true when any node of the tree carries a pending attestation. -/
def hasPendingTS : Timestamp → Bool
  | .mk atts ops =>
    atts.any (fun a => match a with | .pending _ => true | _ => false) ||
    hasPendingList ops

def hasPendingList : List (Operation × Timestamp) → Bool
  | [] => false
  | (_, child) :: rest => hasPendingTS child || hasPendingList rest

end

/-! ## writer.ts -/

/-- The loop of `writeVaruint`, with a fuel argument so the recursion
is structural (the loop divides `v` by 128 each round, so a fuel of
`v + 1` can never run out; the fuel-0 branch is unreachable from
`writeVaruint`). -/
def writeVaruintAux : Nat → Nat → Bytes
  | 0, v => [v &&& 0x7f]
  | fuel + 1, v =>
    if v / 128 = 0 then [v &&& 0x7f]
    else (v &&& 0x7f ||| 0x80) :: writeVaruintAux fuel (v / 128)

/-- `writeVaruint`: minimal little-endian base-128 encoding.  The
source loop pushes `v & 0x7f` with the high bit set when `v / 128` is
still nonzero (division is exact on JS integers in the guarded
range). -/
def writeVaruint (v : Nat) : Bytes :=
  writeVaruintAux (v + 1) v

/-- `writeVarbytes`: varuint length then raw bytes. -/
def writeVarbytes (data : Bytes) : Bytes :=
  writeVaruint data.length ++ data

/-- `writeOperation`. -/
def writeOperation : Operation → Bytes
  | .append d => TAG_APPEND :: writeVarbytes d
  | .prepend d => TAG_PREPEND :: writeVarbytes d
  | .sha256 => [HASH_OP_TO_TAG .sha256]
  | .sha1 => [HASH_OP_TO_TAG .sha1]
  | .ripemd160 => [HASH_OP_TO_TAG .ripemd160]
  | .keccak256 => [HASH_OP_TO_TAG .keccak256]
  | .reverse => [TAG_REVERSE]
  | .hexlify => [TAG_HEXLIFY]

/-- `writeAttestation`: the `0x00` marker, the 8-byte type tag, then
the varbytes payload.  Bitcoin/Litecoin/Ethereum build the payload as
the varuint of the height; Pending writes `writeVarbytes(uriBytes)` —
a single wrapping, with no inner length prefix. -/
def writeAttestation : Attestation → Bytes
  | .bitcoin h => TAG_ATTESTATION :: ATT_TAG_BITCOIN ++ writeVarbytes (writeVaruint h)
  | .litecoin h => TAG_ATTESTATION :: ATT_TAG_LITECOIN ++ writeVarbytes (writeVaruint h)
  | .ethereum h => TAG_ATTESTATION :: ATT_TAG_ETHEREUM ++ writeVarbytes (writeVaruint h)
  | .pending uri => TAG_ATTESTATION :: ATT_TAG_PENDING ++ writeVarbytes uri
  | .unknown tag payload => TAG_ATTESTATION :: tag ++ writeVarbytes payload

/-- Interleave fork markers: the source pushes `0xFF` before every
branch whose index is below `totalBranches - 1`, i.e. before each
branch except the last. -/
def joinForks : List Bytes → Bytes
  | [] => []
  | [b] => b
  | b :: rest => TAG_FORK :: b ++ joinForks rest

mutual

/-- `writeTimestamp`: attestations first, then continuations, with a
fork marker before every branch but the last. -/
def writeTimestamp : Timestamp → Bytes
  | .mk atts ops => joinForks (atts.map writeAttestation ++ writeContinuations ops)

def writeContinuations : List (Operation × Timestamp) → List Bytes
  | [] => []
  | (op, child) :: rest =>
    (writeOperation op ++ writeTimestamp child) :: writeContinuations rest

end

/-- `writeOts`: header, version 1, hash tag, digest, tree. -/
def writeOts (ots : OtsFile) : Bytes :=
  HEADER_MAGIC ++ writeVaruint 1 ++ HASH_OP_TO_TAG ots.hashOp :: ots.fileDigest
    ++ writeTimestamp ots.timestamp

/-! ## crypto.ts / operations.ts

SHA-256, SHA-1 and RIPEMD-160 are external collaborators (crypto.subtle
and noble-hashes); they are modelled as an oracle record of total
functions on byte lists. -/

/-- The hash oracle collaborator (crypto.ts). -/
structure HashOracles where
  sha256 : Bytes → Bytes
  sha1 : Bytes → Bytes
  ripemd160 : Bytes → Bytes

/-- `applyOperation` from operations.ts: transforms a message, failing
exactly on Keccak256. -/
def applyOperation (H : HashOracles) : Operation → Bytes → Except String Bytes
  | .append d, msg => .ok (msg ++ d)
  | .prepend d, msg => .ok (d ++ msg)
  | .sha256, msg => .ok (H.sha256 msg)
  | .sha1, msg => .ok (H.sha1 msg)
  | .ripemd160, msg => .ok (H.ripemd160 msg)
  | .keccak256, _ => .error "Keccak256 is not supported"
  | .reverse, msg => .ok msg.reverse
  | .hexlify, msg => .ok (bytesToHexBytes msg)

/-- `hashContents` from operations.ts. -/
def hashContents (H : HashOracles) (data : Bytes) : HashOp → Except String Bytes
  | .sha256 => .ok (H.sha256 data)
  | .sha1 => .ok (H.sha1 data)
  | .ripemd160 => .ok (H.ripemd160 data)
  | .keccak256 => .error "Keccak256 is not supported"

/-! ## bitcoin.ts / verify.ts -/

/-- `BlockInfo` from bitcoin.ts: the block-lookup collaborator's
answer.  The merkle root is the big-endian display hex, kept as its
ASCII bytes. -/
structure BlockInfo where
  blockHash : String
  merkleRoot : Bytes
  timestamp : Nat

/-- The block-lookup collaborator: `getBlockInfo(height)` either
yields a `BlockInfo` or throws. -/
def BlockOracle := Nat → Except String BlockInfo

/-- `parseInt(ch, 16)` on a single character code: hex digit value of
an ASCII code, or failure. -/
def hexDigitVal (c : Nat) : Option Nat :=
  if 48 ≤ c ∧ c ≤ 57 then some (c - 48)
  else if 97 ≤ c ∧ c ≤ 102 then some (c - 87)
  else if 65 ≤ c ∧ c ≤ 70 then some (c - 55)
  else none

/-- `hexToBytes` from hex.ts, on the hex string's character codes:
rejects odd length and non-hex characters. -/
def hexToBytesE : Bytes → Except String Bytes
  | [] => .ok []
  | [_] => .error "Odd-length hex string"
  | hi :: lo :: rest =>
    match hexDigitVal hi, hexDigitVal lo with
    | some h, some l =>
      match hexToBytesE rest with
      | .error e => .error e
      | .ok bs => .ok ((h * 16 + l) :: bs)
    | _, _ => .error "Invalid hex character"

/-- `merkleRootToLeBytes` from bitcoin.ts: decode the big-endian hex
and reverse into little-endian bytes. -/
def merkleRootToLeBytes (hexBe : Bytes) : Except String Bytes :=
  match hexToBytesE hexBe with
  | .error e => .error e
  | .ok bs => .ok bs.reverse

/-- The `VerifyResult` union from types.ts. -/
inductive VerifyResult where
  | verified (height : Nat) (blockHash : String) (blockTime : Nat)
  | pending (uri : Bytes)
  | failed (height : Nat) (expected got : Bytes)
  | skipped (reason : String)
  | errorResult (message : String)
deriving DecidableEq, Repr

/-- `verifyBitcoin` from verify.ts: look the block up, convert the
merkle root, compare in constant time; any thrown error becomes an
in-band `errorResult`. -/
def verifyBitcoin (B : BlockOracle) (height : Nat) (msg : Bytes) : VerifyResult :=
  match B height with
  | .error e => .errorResult ("Could not fetch Bitcoin block: " ++ e)
  | .ok info =>
    match merkleRootToLeBytes info.merkleRoot with
    | .error e => .errorResult ("Could not fetch Bitcoin block: " ++ e)
    | .ok expectedLe =>
      if constantTimeEqual msg expectedLe then
        .verified height info.blockHash info.timestamp
      else
        .failed height expectedLe msg

/-- `checkAttestation` from verify.ts. -/
def checkAttestation (B : BlockOracle) (msg : Bytes) : Attestation → VerifyResult
  | .bitcoin h => verifyBitcoin B h msg
  | .pending uri => .pending uri
  | .litecoin _ => .skipped "Litecoin block — not verified"
  | .ethereum _ => .skipped "Ethereum block — not verified"
  | .unknown _ _ => .skipped "Unknown attestation type"

mutual

/-- `walkTimestamp` from verify.ts: one result per attestation at this
node, then the continuation branches in order; a failing operation
application contributes a single in-band error entry for its subtree;
depth above 256 contributes a single error entry. -/
def walkTimestamp (B : BlockOracle) (H : HashOracles) :
    Timestamp → Bytes → Nat → List VerifyResult
  | .mk atts ops, msg, depth =>
    if depth > MAX_DEPTH then [.errorResult "Proof tree exceeds maximum depth"]
    else atts.map (checkAttestation B msg) ++ walkOps B H ops msg depth

def walkOps (B : BlockOracle) (H : HashOracles) :
    List (Operation × Timestamp) → Bytes → Nat → List VerifyResult
  | [], _, _ => []
  | (op, child) :: rest, msg, depth =>
    (match applyOperation H op msg with
     | .ok newMsg => walkTimestamp B H child newMsg (depth + 1)
     | .error e => [.errorResult ("Operation failed: " ++ e)]) ++
    walkOps B H rest msg depth

end

/-- `verifyFile` from verify.ts: parse, hash the input, compare the
digests in constant time (throwing on mismatch), then walk the tree
from the file digest. -/
def verifyFile (B : BlockOracle) (H : HashOracles) (fileData otsData : Bytes) :
    Except String (List VerifyResult) :=
  match parseOts otsData with
  | .error e => .error e
  | .ok ots =>
    match hashContents H fileData ots.hashOp with
    | .error e => .error e
    | .ok computedDigest =>
      if ¬ constantTimeEqual computedDigest ots.fileDigest then
        .error "File digest mismatch"
      else
        .ok (walkTimestamp B H ots.timestamp ots.fileDigest 0)

/-! ## upgrade.ts

The source mutates the tree in place; the embedding threads the tree
and the `UpgradeResult` statistics explicitly.  The calendar
collaborator (`fetch` of `{uri}/timestamp/{hex(msg)}`) is an oracle
from the pending URI and the current message to one of: 404/empty body
(still pending), a transport/HTTP failure (throws), or a response
body. -/

/-- Statistics record `UpgradeResult` from types.ts. -/
structure UpgradeResult where
  upgraded : Nat
  stillPending : Nat
  errors : List String
  alreadyComplete : Bool
deriving DecidableEq, Repr

/-- One calendar-fetch outcome. -/
inductive CalResp where
  | notFound
  | failure (msg : String)
  | body (data : Bytes)

/-- The calendar collaborator. -/
def Calendar := Bytes → Bytes → CalResp

/-- `fetchUpgrade` from upgrade.ts: 404 or an empty body yield `none`
(still pending); a transport/HTTP error throws; a non-empty body is
parsed as a standalone Timestamp (a parse failure also throws). -/
def fetchUpgrade (cal : Calendar) (uri msg : Bytes) : Except String (Option Timestamp) :=
  match cal uri msg with
  | .notFound => .ok none
  | .failure e => .error e
  | .body data =>
    if data = [] then .ok none
    else
      match parseTimestampFromBytes data with
      | .error e => .error e
      | .ok ts => .ok (some ts)

/-- The attestation loop of `upgradeTimestamp`: builds
`newAttestations` and `newOps` and updates the counters, in iteration
order.  An upgraded pending attestation contributes the sub-tree's
attestations and continuations; a still-pending or failing one is
retained. -/
def processAttestations (cal : Calendar) (msg : Bytes) :
    List Attestation → UpgradeResult →
    List Attestation × List (Operation × Timestamp) × UpgradeResult
  | [], res => ([], [], res)
  | att :: rest, res =>
    match att with
    | .pending uri =>
      (match fetchUpgrade cal uri msg with
       | .ok (some sub) =>
         let (as, os, res2) :=
           processAttestations cal msg rest { res with upgraded := res.upgraded + 1 }
         (sub.attestations ++ as, sub.ops ++ os, res2)
       | .ok none =>
         let (as, os, res2) :=
           processAttestations cal msg rest { res with stillPending := res.stillPending + 1 }
         (att :: as, os, res2)
       | .error e =>
         let (as, os, res2) :=
           processAttestations cal msg rest { res with errors := res.errors ++ [e] }
         (att :: as, os, res2))
    | _ =>
      let (as, os, res2) := processAttestations cal msg rest res
      (att :: as, os, res2)

mutual

/-- `upgradeTimestamp` from upgrade.ts.  The source snapshots
`originalOps := [...ts.ops]`, sets `ts.attestations := newAttestations`,
pushes `newOps` onto `ts.ops`, and then recurses only into the
snapshot; the recursion mutates those children in place, so the final
node is `newAttestations` with the upgraded originals followed by the
untouched `newOps`. -/
def upgradeTimestamp (cal : Calendar) (H : HashOracles) :
    Timestamp → Bytes → UpgradeResult → Nat → Timestamp × UpgradeResult
  | ts, msg, res, depth =>
    if depth > MAX_DEPTH then
      (ts, { res with errors := res.errors ++ ["Proof tree exceeds maximum depth"] })
    else
      match ts with
      | .mk atts ops =>
        let (newAtts, newOps, res1) := processAttestations cal msg atts res
        let (upgradedOps, res2) := upgradeChildren cal H ops msg res1 depth
        (.mk newAtts (upgradedOps ++ newOps), res2)

/-- The `for (const [op, child] of originalOps)` loop: apply the
operation (a failure is recorded and the child kept as-is), recurse
into the child, keep the operation. -/
def upgradeChildren (cal : Calendar) (H : HashOracles) :
    List (Operation × Timestamp) → Bytes → UpgradeResult → Nat →
    List (Operation × Timestamp) × UpgradeResult
  | [], _, res, _ => ([], res)
  | (op, child) :: rest, msg, res, depth =>
    match applyOperation H op msg with
    | .ok newMsg =>
      let (child2, res1) := upgradeTimestamp cal H child newMsg res (depth + 1)
      let (rest2, res2) := upgradeChildren cal H rest msg res1 depth
      ((op, child2) :: rest2, res2)
    | .error e =>
      let res1 := { res with errors := res.errors ++ ["Operation failed: " ++ e] }
      let (rest2, res2) := upgradeChildren cal H rest msg res1 depth
      ((op, child) :: rest2, res2)

end

/-- `upgradeProof` from upgrade.ts: if the tree has no pending
attestation, report `alreadyComplete` without walking; otherwise walk
from the file digest. -/
def upgradeProof (cal : Calendar) (H : HashOracles) (ots : OtsFile) :
    OtsFile × UpgradeResult :=
  if hasPendingTS ots.timestamp then
    let (ts2, res) :=
      upgradeTimestamp cal H ots.timestamp ots.fileDigest
        ⟨0, 0, [], false⟩ 0
    (⟨ots.hashOp, ots.fileDigest, ts2⟩, res)
  else
    (ots, ⟨0, 0, [], true⟩)

/-! ## stamp.ts

Only the pure assembly of the .ots bytes (stamp.ts lines 70–97) is
modelled; the SHA-256 of the nonce, the HTTP submissions and the RNG
are external.  `responses` are the collected non-empty calendar
response bodies, in server order. -/

/-- The byte assembly of `stampHash`: header, version 1, SHA-256 tag,
file digest, `Prepend(nonce)`, `Sha256`, then the response bodies
verbatim with a fork marker before each body except the last. -/
def forkJoin (responses : List Bytes) : Bytes :=
  (responses.dropLast.flatMap (fun data => TAG_FORK :: data))
    ++ (responses.getLast?.getD [])

def stampAssemble (fileDigest nonce : Bytes) (responses : List Bytes) : Bytes :=
  HEADER_MAGIC ++ writeVaruint 1 ++ HASH_OP_TO_TAG .sha256 :: fileDigest
    ++ TAG_PREPEND :: writeVarbytes nonce
    ++ TAG_SHA256 :: forkJoin responses

/-! ## Helper lemmas: bit arithmetic -/

theorem and127_eq_mod (v : Nat) : v &&& 127 = v % 128 := by
  have h := Nat.and_pow_two_sub_one_eq_mod v 7
  norm_num at h
  exact h

theorem and128_eq_zero_of_lt (v : Nat) (h : v < 128) : v &&& 128 = 0 := by
  have h2 := Nat.and_two_pow v 7
  rw [Nat.testBit_lt_two_pow (by norm_num [h] : v < 2 ^ 7)] at h2
  norm_num at h2 ⊢
  omega

theorem or128_and127 (v : Nat) : (v &&& 127 ||| 128) &&& 127 = v &&& 127 := by
  apply Nat.eq_of_testBit_eq
  intro i
  have h127 : Nat.testBit 127 i = decide (i < 7) := by
    simpa using Nat.testBit_two_pow_sub_one (n := 7) (i := i)
  have h128 : Nat.testBit 128 i = decide (7 = i) := by
    simpa using (Nat.testBit_two_pow (n := 7) (m := i))
  simp only [Nat.testBit_or, Nat.testBit_and, h127, h128]
  by_cases hi : i < 7
  · simp [hi, show ¬(7 = i) by omega]
  · simp [hi]

theorem or128_and128 (v : Nat) : (v &&& 127 ||| 128) &&& 128 = 128 := by
  apply Nat.eq_of_testBit_eq
  intro i
  have h127 : Nat.testBit 127 i = decide (i < 7) := by
    simpa using Nat.testBit_two_pow_sub_one (n := 7) (i := i)
  have h128 : Nat.testBit 128 i = decide (7 = i) := by
    simpa using (Nat.testBit_two_pow (n := 7) (m := i))
  simp only [Nat.testBit_or, Nat.testBit_and, h127, h128]
  by_cases hi : (7 : Nat) = i
  · simp [hi, show ¬(i < 7) by omega]
  · simp [hi]

/-! ## Helper lemmas: reader framing

Each low-level reader consumes a determined prefix of the stream:
appending extra bytes after a successful read leaves the result
unchanged and the extra bytes unconsumed. -/

theorem readBytesE_append (s rest : Bytes) :
    readBytesE s.length (s ++ rest) = .ok (s, rest) := by
  induction s with
  | nil => rfl
  | cons b t ih => simp [readBytesE, ih]

theorem readBytesE_frame (n : Nat) (s x s2 rest : Bytes)
    (h : readBytesE n s = .ok (x, s2)) :
    readBytesE n (s ++ rest) = .ok (x, s2 ++ rest) := by
  induction n generalizing s x with
  | zero =>
    simp only [readBytesE, Except.ok.injEq, Prod.mk.injEq] at h ⊢
    exact ⟨h.1, by rw [h.2]⟩
  | succ n ih =>
    match s with
    | [] => simp [readBytesE] at h
    | b :: t =>
      simp only [readBytesE, List.cons_append] at h ⊢
      cases hrec : readBytesE n t with
      | error e => rw [hrec] at h; simp at h
      | ok p =>
        obtain ⟨xs, r⟩ := p
        rw [hrec] at h
        simp only [Except.ok.injEq, Prod.mk.injEq] at h
        obtain ⟨h1, h2⟩ := h
        subst h2
        simp only [List.append_eq]
        rw [ih t xs hrec]
        simp [h1]

theorem readVaruintAux_frame (s : Bytes) (shift value x : Nat) (s2 rest : Bytes)
    (h : readVaruintAux s shift value = .ok (x, s2)) :
    readVaruintAux (s ++ rest) shift value = .ok (x, s2 ++ rest) := by
  induction s generalizing shift value with
  | nil => simp [readVaruintAux] at h
  | cons b t ih =>
    simp only [readVaruintAux, List.cons_append] at h ⊢
    by_cases h1 : 56 ≤ shift ∧ 0 < b &&& 127
    · rw [if_pos h1] at h; exact absurd h (by simp)
    · rw [if_neg h1] at h ⊢
      by_cases h2 : 49 ≤ shift ∧ 15 < b &&& 127
      · rw [if_pos h2] at h; exact absurd h (by simp)
      · rw [if_neg h2] at h ⊢
        by_cases h3 : b &&& 128 = 0
        · rw [if_pos h3] at h ⊢
          simp only [Except.ok.injEq, Prod.mk.injEq] at h
          obtain ⟨hx, hs⟩ := h
          subst hs
          simp [hx]
        · rw [if_neg h3] at h ⊢
          exact ih _ _ h

theorem readVaruint_frame (s : Bytes) (x : Nat) (s2 rest : Bytes)
    (h : readVaruint s = .ok (x, s2)) :
    readVaruint (s ++ rest) = .ok (x, s2 ++ rest) :=
  readVaruintAux_frame s 0 0 x s2 rest h

theorem readVarbytes_frame (s x s2 rest : Bytes)
    (h : readVarbytes s = .ok (x, s2)) :
    readVarbytes (s ++ rest) = .ok (x, s2 ++ rest) := by
  unfold readVarbytes at h ⊢
  cases hv : readVaruint s with
  | error e => rw [hv] at h; simp at h
  | ok p =>
    obtain ⟨len, s1⟩ := p
    rw [hv] at h
    simp only at h
    by_cases hcap : len > 1048576
    · rw [if_pos hcap] at h; exact absurd h (by simp)
    · rw [if_neg hcap] at h
      rw [readVaruint_frame s len s1 rest hv]
      simp only
      rw [if_neg hcap]
      exact readBytesE_frame len s1 x s2 rest h

theorem parseAttestation_frame (s : Bytes) (a : Attestation) (s2 rest : Bytes)
    (h : parseAttestation s = .ok (a, s2)) :
    parseAttestation (s ++ rest) = .ok (a, s2 ++ rest) := by
  unfold parseAttestation at h ⊢
  cases h8 : readBytesE 8 s with
  | error e => rw [h8] at h; simp at h
  | ok p =>
    obtain ⟨tag, s1⟩ := p
    rw [h8] at h
    rw [readBytesE_frame 8 s tag s1 rest h8]
    simp only at h ⊢
    cases hv : readVarbytes s1 with
    | error e => rw [hv] at h; simp at h
    | ok q =>
      obtain ⟨payload, s3⟩ := q
      rw [hv] at h
      rw [readVarbytes_frame s1 payload s3 rest hv]
      simp only at h ⊢
      by_cases hbtc : constantTimeEqual tag ATT_TAG_BITCOIN = true
      · rw [if_pos hbtc] at h ⊢
        cases hu : varuintFromSlice payload with
        | error e => rw [hu] at h; simp at h
        | ok v =>
          rw [hu] at h
          simp only [Except.ok.injEq, Prod.mk.injEq] at h ⊢
          exact ⟨h.1, by rw [h.2]⟩
      · rw [if_neg hbtc] at h ⊢
        by_cases hltc : constantTimeEqual tag ATT_TAG_LITECOIN = true
        · rw [if_pos hltc] at h ⊢
          cases hu : varuintFromSlice payload with
          | error e => rw [hu] at h; simp at h
          | ok v =>
            rw [hu] at h
            simp only [Except.ok.injEq, Prod.mk.injEq] at h ⊢
            exact ⟨h.1, by rw [h.2]⟩
        · rw [if_neg hltc] at h ⊢
          by_cases heth : constantTimeEqual tag ATT_TAG_ETHEREUM = true
          · rw [if_pos heth] at h ⊢
            cases hu : varuintFromSlice payload with
            | error e => rw [hu] at h; simp at h
            | ok v =>
              rw [hu] at h
              simp only [Except.ok.injEq, Prod.mk.injEq] at h ⊢
              exact ⟨h.1, by rw [h.2]⟩
          · rw [if_neg heth] at h ⊢
            by_cases hpend : constantTimeEqual tag ATT_TAG_PENDING = true
            · rw [if_pos hpend] at h ⊢
              cases hu : readVarbytes payload with
              | error e => rw [hu] at h; simp at h
              | ok w =>
                obtain ⟨uriBytes, w2⟩ := w
                rw [hu] at h
                simp only [Except.ok.injEq, Prod.mk.injEq] at h ⊢
                exact ⟨h.1, by rw [h.2]⟩
            · rw [if_neg hpend] at h ⊢
              simp only [Except.ok.injEq, Prod.mk.injEq] at h ⊢
              exact ⟨h.1, by rw [h.2]⟩

theorem parseOperation_frame (s : Bytes) (op : Operation) (s2 rest : Bytes)
    (h : parseOperation s = .ok (op, s2)) :
    parseOperation (s ++ rest) = .ok (op, s2 ++ rest) := by
  unfold parseOperation at h ⊢
  match s with
  | [] => simp [readByteE] at h
  | b :: t =>
    simp only [readByteE, List.cons_append] at h ⊢
    by_cases happ : b = TAG_APPEND
    · rw [if_pos happ] at h ⊢
      cases hv : readVarbytes t with
      | error e => rw [hv] at h; simp at h
      | ok q =>
        obtain ⟨d, s3⟩ := q
        rw [hv] at h
        rw [readVarbytes_frame t d s3 rest hv]
        simp only [Except.ok.injEq, Prod.mk.injEq] at h ⊢
        exact ⟨h.1, by rw [h.2]⟩
    · rw [if_neg happ] at h ⊢
      by_cases hpre : b = TAG_PREPEND
      · rw [if_pos hpre] at h ⊢
        cases hv : readVarbytes t with
        | error e => rw [hv] at h; simp at h
        | ok q =>
          obtain ⟨d, s3⟩ := q
          rw [hv] at h
          rw [readVarbytes_frame t d s3 rest hv]
          simp only [Except.ok.injEq, Prod.mk.injEq] at h ⊢
          exact ⟨h.1, by rw [h.2]⟩
      · rw [if_neg hpre] at h ⊢
        by_cases hrev : b = TAG_REVERSE
        · rw [if_pos hrev] at h ⊢
          simp only [Except.ok.injEq, Prod.mk.injEq] at h ⊢
          exact ⟨h.1, by rw [h.2]⟩
        · rw [if_neg hrev] at h ⊢
          by_cases hhex : b = TAG_HEXLIFY
          · rw [if_pos hhex] at h ⊢
            simp only [Except.ok.injEq, Prod.mk.injEq] at h ⊢
            exact ⟨h.1, by rw [h.2]⟩
          · rw [if_neg hhex] at h ⊢
            by_cases h256 : b = TAG_SHA256
            · rw [if_pos h256] at h ⊢
              simp only [Except.ok.injEq, Prod.mk.injEq] at h ⊢
              exact ⟨h.1, by rw [h.2]⟩
            · rw [if_neg h256] at h ⊢
              by_cases h1 : b = TAG_SHA1
              · rw [if_pos h1] at h ⊢
                simp only [Except.ok.injEq, Prod.mk.injEq] at h ⊢
                exact ⟨h.1, by rw [h.2]⟩
              · rw [if_neg h1] at h ⊢
                by_cases h160 : b = TAG_RIPEMD160
                · rw [if_pos h160] at h ⊢
                  simp only [Except.ok.injEq, Prod.mk.injEq] at h ⊢
                  exact ⟨h.1, by rw [h.2]⟩
                · rw [if_neg h160] at h ⊢
                  by_cases hk : b = TAG_KECCAK256
                  · rw [if_pos hk] at h ⊢
                    simp only [Except.ok.injEq, Prod.mk.injEq] at h ⊢
                    exact ⟨h.1, by rw [h.2]⟩
                  · rw [if_neg hk] at h ⊢
                    exact absurd h (by simp)

/-! ## Helper lemmas: varuint write/read roundtrip -/

theorem readVaruintAux_writeVaruintAux (fuel : Nat) :
    ∀ (v shift acc : Nat) (rest : Bytes), v ≤ fuel → v * 2 ^ shift < 2 ^ 53 →
    readVaruintAux (writeVaruintAux fuel v ++ rest) shift acc =
      .ok (acc + v * 2 ^ shift, rest) := by
  induction fuel with
  | zero =>
    intro v shift acc rest hv hbound
    interval_cases v
    simp [writeVaruintAux, readVaruintAux]
  | succ fuel ih =>
    intro v shift acc rest hv hbound
    by_cases hdiv : v / 128 = 0
    · have hvlt : v < 128 := by omega
      have hand : v &&& 127 = v := by rw [and127_eq_mod]; omega
      have hg1 : ¬ (56 ≤ shift ∧ 0 < v) := by
        rintro ⟨h56, h0⟩
        have hpow : (2 : Nat) ^ 56 ≤ 2 ^ shift := Nat.pow_le_pow_right (by norm_num) h56
        have : 2 ^ shift ≤ v * 2 ^ shift := Nat.le_mul_of_pos_left _ h0
        have hnum : (2 : Nat) ^ 53 ≤ 2 ^ 56 := by norm_num
        omega
      have hg2 : ¬ (49 ≤ shift ∧ 15 < v) := by
        rintro ⟨h49, h15⟩
        have hpow : (2 : Nat) ^ 49 ≤ 2 ^ shift := Nat.pow_le_pow_right (by norm_num) h49
        have : 16 * 2 ^ 49 ≤ v * 2 ^ shift := Nat.mul_le_mul (by omega) hpow
        have hnum : (16 : Nat) * 2 ^ 49 = 2 ^ 53 := by norm_num
        omega
      simp only [writeVaruintAux]
      rw [if_pos hdiv]
      simp only [List.cons_append, List.nil_append, readVaruintAux, hand]
      rw [if_neg hg1, if_neg hg2, if_pos (and128_eq_zero_of_lt v hvlt)]
      simp
    · have hv128 : 128 ≤ v := by omega
      have hshift : ¬ 49 ≤ shift := by
        intro h49
        have hpow : (2 : Nat) ^ 49 ≤ 2 ^ shift := Nat.pow_le_pow_right (by norm_num) h49
        have : 128 * 2 ^ 49 ≤ v * 2 ^ shift := Nat.mul_le_mul hv128 hpow
        have hnum : (2 : Nat) ^ 53 ≤ 128 * 2 ^ 49 := by norm_num
        omega
      have hg1 : ¬ (56 ≤ shift ∧ 0 < v % 128) := by
        rintro ⟨h56, _⟩
        exact hshift (by omega)
      have hg2 : ¬ (49 ≤ shift ∧ 15 < v % 128) := by
        rintro ⟨h49, _⟩
        exact hshift h49
      simp only [writeVaruintAux]
      rw [if_neg hdiv]
      simp only [List.cons_append, List.append_eq, readVaruintAux,
        or128_and127, or128_and128]
      simp only [and127_eq_mod]
      rw [if_neg hg1, if_neg hg2, if_neg (by omega : ¬ (128 : Nat) = 0)]
      have hle : v / 128 * 2 ^ (shift + 7) ≤ v * 2 ^ shift := by
        rw [pow_add]
        calc v / 128 * (2 ^ shift * 2 ^ 7) = v / 128 * 128 * 2 ^ shift := by ring
        _ ≤ v * 2 ^ shift := Nat.mul_le_mul_right _ (Nat.div_mul_le_self v 128)
      rw [ih (v / 128) (shift + 7) (acc + v % 128 * 2 ^ shift) rest (by omega) (by omega)]
      congr 2
      have hsplit : v % 128 + 128 * (v / 128) = v := Nat.mod_add_div v 128
      calc acc + v % 128 * 2 ^ shift + v / 128 * 2 ^ (shift + 7)
          = acc + (v % 128 + 128 * (v / 128)) * 2 ^ shift := by rw [pow_add]; ring
      _ = acc + v * 2 ^ shift := by rw [hsplit]

theorem readVaruint_writeVaruint (n : Nat) (hn : n < 2 ^ 53) (rest : Bytes) :
    readVaruint (writeVaruint n ++ rest) = .ok (n, rest) := by
  have h := readVaruintAux_writeVaruintAux (n + 1) n 0 0 rest (by omega)
    (by simpa using hn)
  unfold readVaruint writeVaruint
  simpa using h

theorem readBytesE_append_of_length (n : Nat) (s rest : Bytes) (hn : s.length = n) :
    readBytesE n (s ++ rest) = .ok (s, rest) :=
  hn ▸ readBytesE_append s rest

theorem readBytesE_exact (n : Nat) (s : Bytes) (hn : s.length = n) :
    readBytesE n s = .ok (s, []) := by
  have h := readBytesE_append_of_length n s [] hn
  rwa [List.append_nil] at h

/-- One loop round of `readVaruint` below the guard region: any byte
with its continuation bit set is consumed with no overflow check
firing while `shift ≤ 42`. -/
theorem readVaruintAux_step_low (b : Nat) (t : Bytes) (shift value : Nat)
    (hs : shift ≤ 42) (hb : b &&& 128 ≠ 0) :
    readVaruintAux (b :: t) shift value =
      readVaruintAux t (shift + 7) (value + (b &&& 127) * 2 ^ shift) := by
  simp only [readVaruintAux]
  rw [if_neg (by rintro ⟨h56, _⟩; omega), if_neg (by rintro ⟨h49, _⟩; omega),
    if_neg hb]

/-! ## Helper lemmas: hexlify -/

theorem bytesToHexBytes_length (msg : Bytes) :
    (bytesToHexBytes msg).length = 2 * msg.length := by
  induction msg with
  | nil => rfl
  | cons b t ih =>
    simp only [bytesToHexBytes, List.flatMap_cons, List.length_append,
      List.length_cons, List.length_nil] at ih ⊢
    omega

theorem hexCharCode_range (n : Nat) (hn : n ≤ 15) :
    (48 ≤ hexCharCode n ∧ hexCharCode n ≤ 57) ∨
    (97 ≤ hexCharCode n ∧ hexCharCode n ≤ 102) := by
  unfold hexCharCode
  by_cases h : n < 10
  · rw [if_pos h]; omega
  · rw [if_neg h]; omega

theorem bytesToHexBytes_alphabet (msg : Bytes) (hb : ∀ b ∈ msg, b < 256) :
    ∀ c ∈ bytesToHexBytes msg, (48 ≤ c ∧ c ≤ 57) ∨ (97 ≤ c ∧ c ≤ 102) := by
  induction msg with
  | nil => intro c hc; simp [bytesToHexBytes] at hc
  | cons b t ih =>
    intro c hc
    simp only [bytesToHexBytes, List.flatMap_cons, List.mem_append,
      List.mem_cons, List.not_mem_nil, or_false] at hc
    rcases hc with (hc | hc) | hc
    · subst hc
      exact hexCharCode_range _ (by
        have := hb b (by simp)
        omega)
    · subst hc
      exact hexCharCode_range _ (by
        have := hb b (by simp)
        omega)
    · exact ih (fun x hx => hb x (by simp [hx])) c hc

/-! ## Shared concrete collaborators for closed instances -/

/-- A trivial hash oracle for concrete instantiations. -/
def trivialHashes : HashOracles :=
  ⟨fun _ => List.replicate 32 1, fun _ => List.replicate 20 2,
   fun _ => List.replicate 20 3⟩

/-- A block oracle that always fails to reach the explorer. -/
def offlineBlocks : BlockOracle := fun _ => .error "Network error"

/-- A calendar oracle that always answers 404. -/
def nullCalendar : Calendar := fun _ _ => .notFound

/-- UTF-8 bytes of a short calendar URI, for concrete instances. -/
def sampleUri : Bytes :=
  [104, 116, 116, 112, 115, 58, 47, 47, 97, 46, 101, 120, 97, 109, 112,
   108, 101]

/-- A minimal `OtsFile` whose only branch is a pending attestation. -/
def samplePendingFile : OtsFile :=
  ⟨.sha256, List.replicate 32 0xaa, .mk [.pending sampleUri] []⟩

/-! ## Claim theorems -/

/-- Claim C1 (code bug): with a `Pending(uri)` attestation, the
round-trip `parse(write(o))` does not return `o` — it throws.  The
parser treats the pending payload as a nested varbytes (second
conjunct: the nested form `outer-len 18, inner-len 17, uri` parses,
recovering the URI), but `writeAttestation` emits the payload with a
single wrapping only (first conjunct: `outer-len 17, uri`, with no
inner length prefix), so re-parsing the written bytes reads the first
URI byte `0x68` as an inner length and runs off the end of the
payload. -/
theorem writeOts_pending_breaks_roundtrip :
    writeAttestation (.pending sampleUri) =
      TAG_ATTESTATION :: (ATT_TAG_PENDING ++ 17 :: sampleUri) ∧
    parseAttestation (ATT_TAG_PENDING ++ 18 :: 17 :: sampleUri) =
      .ok (.pending sampleUri, []) ∧
    parseOts (writeOts samplePendingFile) = .error "Unexpected end of file" :=
  ⟨rfl, rfl, rfl⟩

/-- Claim C2 (counterexample): a nine-byte varuint does not always
overflow — when the 9th byte carries a zero payload the read
continues or terminates without error, so `0x80 × 8 ‖ 0x00` (and even
`0x80 × 9 ‖ 0x00`, whose 9th byte has its continuation bit set)
decodes successfully to 0. -/
theorem readVaruint_nine_byte_zero_payload_ok :
    readVaruint [0x80, 0x80, 0x80, 0x80, 0x80, 0x80, 0x80, 0x80, 0x00] =
      .ok (0, []) ∧
    readVaruint [0x80, 0x80, 0x80, 0x80, 0x80, 0x80, 0x80, 0x80, 0x80, 0x00] =
      .ok (0, []) :=
  ⟨rfl, rfl⟩

/-- Claim C2 (amended): after seven continuation bytes, an 8th byte
whose 7-bit payload exceeds 15 raises varuint overflow; a 9th byte
raises overflow exactly when its payload is nonzero; a 9th byte with
zero payload and clear continuation bit is accepted (so nine-byte
varuints padded with zero payloads succeed rather than overflow). -/
theorem readVaruint_overflow_rules (c0 c1 c2 c3 c4 c5 c6 : Nat)
    (hc : ∀ x ∈ [c0, c1, c2, c3, c4, c5, c6], x &&& 128 ≠ 0) :
    (∀ (b : Nat) (rest : Bytes), 15 < b &&& 127 →
      readVaruint (c0 :: c1 :: c2 :: c3 :: c4 :: c5 :: c6 :: b :: rest) =
        .error "Varuint overflow") ∧
    (∀ (b7 b8 : Nat) (rest : Bytes), b7 &&& 128 ≠ 0 → b7 &&& 127 ≤ 15 →
      0 < b8 &&& 127 →
      readVaruint (c0 :: c1 :: c2 :: c3 :: c4 :: c5 :: c6 :: b7 :: b8 :: rest) =
        .error "Varuint overflow") ∧
    (∀ (b7 : Nat) (rest : Bytes), b7 &&& 128 ≠ 0 → b7 &&& 127 ≤ 15 →
      ∃ v, readVaruint (c0 :: c1 :: c2 :: c3 :: c4 :: c5 :: c6 :: b7 :: 0 :: rest) =
        .ok (v, rest)) := by
  have h0 := hc c0 (by simp)
  have h1 := hc c1 (by simp)
  have h2 := hc c2 (by simp)
  have h3 := hc c3 (by simp)
  have h4 := hc c4 (by simp)
  have h5 := hc c5 (by simp)
  have h6 := hc c6 (by simp)
  refine ⟨?_, ?_, ?_⟩
  · intro b rest hb15
    unfold readVaruint
    rw [readVaruintAux_step_low c0 _ 0 _ (by omega) h0,
      readVaruintAux_step_low c1 _ 7 _ (by omega) h1,
      readVaruintAux_step_low c2 _ 14 _ (by omega) h2,
      readVaruintAux_step_low c3 _ 21 _ (by omega) h3,
      readVaruintAux_step_low c4 _ 28 _ (by omega) h4,
      readVaruintAux_step_low c5 _ 35 _ (by omega) h5,
      readVaruintAux_step_low c6 _ 42 _ (by omega) h6]
    simp only [readVaruintAux]
    rw [if_neg (by rintro ⟨hx, _⟩; omega), if_pos ⟨by omega, hb15⟩]
  · intro b7 b8 rest hcont hpay hpos
    unfold readVaruint
    rw [readVaruintAux_step_low c0 _ 0 _ (by omega) h0,
      readVaruintAux_step_low c1 _ 7 _ (by omega) h1,
      readVaruintAux_step_low c2 _ 14 _ (by omega) h2,
      readVaruintAux_step_low c3 _ 21 _ (by omega) h3,
      readVaruintAux_step_low c4 _ 28 _ (by omega) h4,
      readVaruintAux_step_low c5 _ 35 _ (by omega) h5,
      readVaruintAux_step_low c6 _ 42 _ (by omega) h6]
    simp only [readVaruintAux]
    rw [if_neg (by rintro ⟨hx, _⟩; omega), if_neg (by rintro ⟨_, hx⟩; omega),
      if_neg hcont]
    rw [if_pos ⟨by omega, hpos⟩]
  · intro b7 rest hcont hpay
    unfold readVaruint
    rw [readVaruintAux_step_low c0 _ 0 _ (by omega) h0,
      readVaruintAux_step_low c1 _ 7 _ (by omega) h1,
      readVaruintAux_step_low c2 _ 14 _ (by omega) h2,
      readVaruintAux_step_low c3 _ 21 _ (by omega) h3,
      readVaruintAux_step_low c4 _ 28 _ (by omega) h4,
      readVaruintAux_step_low c5 _ 35 _ (by omega) h5,
      readVaruintAux_step_low c6 _ 42 _ (by omega) h6]
    simp only [readVaruintAux]
    rw [if_neg (by rintro ⟨hx, _⟩; omega), if_neg (by rintro ⟨_, hx⟩; omega),
      if_neg hcont]
    rw [if_neg (by rintro ⟨_, hx⟩; simp at hx), if_neg (by rintro ⟨_, hx⟩; simp at hx),
      if_pos (by decide)]
    exact ⟨_, rfl⟩

/-- Claim C2 witness: a concrete nine-byte varuint whose 9th byte has
payload 1 overflows, by the amended rules. -/
theorem readVaruint_overflow_rules_witness :
    readVaruint [0x80, 0x80, 0x80, 0x80, 0x80, 0x80, 0x80, 0x8f, 0x01] =
      .error "Varuint overflow" :=
  (readVaruint_overflow_rules 0x80 0x80 0x80 0x80 0x80 0x80 0x80
    (by decide)).2.1 0x8f 0x01 [] (by decide) (by decide) (by decide)

/-- Claim C3 (counterexample): a file that ends immediately after the
digest parses successfully to a node with no attestations and no
continuations, and a file that ends immediately after an operation tag
parses to a child node with no branches — neither raises
unexpected-end-of-data. -/
theorem parseOts_accepts_empty_timestamp_region :
    parseOts (HEADER_MAGIC ++ [1, 8] ++ List.replicate 32 0) =
      .ok ⟨.sha256, List.replicate 32 0, .mk [] []⟩ ∧
    parseOts (HEADER_MAGIC ++ [1, 8] ++ List.replicate 32 0 ++ [0xf2]) =
      .ok ⟨.sha256, List.replicate 32 0, .mk [] [(.reverse, .mk [] [])]⟩ :=
  ⟨rfl, rfl⟩

/-- Claim C3 (amended): for every 32-byte digest, an input ending
immediately after the digest parses to the `OtsFile` whose timestamp
node has no attestations and no continuations, and an input ending
immediately after a `reverse` operation tag parses to a tree whose
child node has no branches; the parser accepts both rather than
raising unexpected-end-of-data. -/
theorem parseOts_empty_region_spec (digest : Bytes) (hd : digest.length = 32) :
    parseOts (HEADER_MAGIC ++ 1 :: 8 :: digest) =
      .ok ⟨.sha256, digest, .mk [] []⟩ ∧
    parseOts (HEADER_MAGIC ++ 1 :: 8 :: (digest ++ [TAG_REVERSE])) =
      .ok ⟨.sha256, digest, .mk [] [(.reverse, .mk [] [])]⟩ := by
  constructor
  · unfold parseOts
    rw [readBytesE_append HEADER_MAGIC (1 :: 8 :: digest)]
    simp only
    rw [if_neg (by decide)]
    rw [show readVaruint (1 :: 8 :: digest) = .ok (1, 8 :: digest) from rfl]
    simp only
    rw [if_neg (by decide)]
    rw [show readByteE (8 :: digest) = .ok (8, digest) from rfl]
    simp only
    rw [show parseHashOp 8 = .ok .sha256 from rfl]
    simp only
    rw [show HASH_OP_DIGEST_LEN .sha256 = 32 from rfl,
      readBytesE_exact 32 digest hd]
    simp only
    rw [show parseTimestamp [] 0 = .ok (.mk [] [], []) from rfl]
  · unfold parseOts
    rw [readBytesE_append HEADER_MAGIC (1 :: 8 :: (digest ++ [TAG_REVERSE]))]
    simp only
    rw [if_neg (by decide)]
    rw [show readVaruint (1 :: 8 :: (digest ++ [TAG_REVERSE])) =
      .ok (1, 8 :: (digest ++ [TAG_REVERSE])) from rfl]
    simp only
    rw [if_neg (by decide)]
    rw [show readByteE (8 :: (digest ++ [TAG_REVERSE])) =
      .ok (8, digest ++ [TAG_REVERSE]) from rfl]
    simp only
    rw [show parseHashOp 8 = .ok .sha256 from rfl]
    simp only
    rw [show HASH_OP_DIGEST_LEN .sha256 = 32 from rfl,
      readBytesE_append_of_length 32 digest [TAG_REVERSE] hd]
    simp only
    rw [show parseTimestamp [TAG_REVERSE] 0 =
      .ok (.mk [] [(.reverse, .mk [] [])], []) from rfl]

/-- Claim C3 witness: the amended statement at the all-zero digest. -/
theorem parseOts_empty_region_spec_witness :
    parseOts (HEADER_MAGIC ++ 1 :: 8 :: List.replicate 32 0) =
      .ok ⟨.sha256, List.replicate 32 0, .mk [] []⟩ :=
  (parseOts_empty_region_spec (List.replicate 32 0) (by decide)).1

/-- Claim C7: `verifyFile` (for an `.ots` input that parses and whose
hash op is computable) throws the digest-mismatch error exactly when
the digest computed from the supplied data differs from the stored
file digest; and on mismatch the outcome does not depend on the block
oracle at all — no attestation is consulted and no per-path result is
produced. -/
theorem verifyFile_digest_mismatch_iff (B B2 : BlockOracle) (H : HashOracles)
    (fileData otsData : Bytes) (o : OtsFile) (d : Bytes)
    (hparse : parseOts otsData = .ok o)
    (hhash : hashContents H fileData o.hashOp = .ok d) :
    (verifyFile B H fileData otsData = .error "File digest mismatch" ↔
      constantTimeEqual d o.fileDigest = false) ∧
    (constantTimeEqual d o.fileDigest = false →
      verifyFile B H fileData otsData = verifyFile B2 H fileData otsData) := by
  unfold verifyFile
  rw [hparse]
  simp only
  rw [hhash]
  simp only
  by_cases hct : constantTimeEqual d o.fileDigest = true
  · rw [if_neg (by simp [hct])]
    constructor
    · constructor
      · intro h; simp at h
      · intro h; rw [hct] at h; simp at h
    · intro h; rw [hct] at h; simp at h
  · have hfalse : constantTimeEqual d o.fileDigest = false := by
      simpa using hct
    rw [if_pos (by simp [hfalse])]
    exact ⟨by simp [hfalse], fun _ => by rw [if_pos (by simp [hfalse])]⟩

/-- Claim C7 witness: on a parseable file whose stored digest is all
`0xaa` while the oracle hashes everything to all-ones, `verifyFile`
reports the digest mismatch. -/
theorem verifyFile_digest_mismatch_iff_witness :
    verifyFile offlineBlocks trivialHashes []
      (HEADER_MAGIC ++ 1 :: 8 :: List.replicate 32 0xaa) =
      .error "File digest mismatch" :=
  (verifyFile_digest_mismatch_iff offlineBlocks offlineBlocks trivialHashes []
    (HEADER_MAGIC ++ 1 :: 8 :: List.replicate 32 0xaa)
    ⟨.sha256, List.replicate 32 0xaa, .mk [] []⟩
    (List.replicate 32 1) (by rfl) (by rfl)).1.mpr (by rfl)

/-- Claim C8: `applyOperation` matches the reference definition:
append and prepend concatenate, reverse reverses (purely — the input
list is untouched), hexlify yields the ASCII lowercase-hex encoding
(doubling the length, all output bytes hex digits), the three hash
operations defer to the corresponding oracle digest, and the function
fails exactly on Keccak256. -/
theorem applyOperation_reference_spec (H : HashOracles) (msg d : Bytes)
    (hbytes : ∀ b ∈ msg, b < 256) :
    applyOperation H (.append d) msg = .ok (msg ++ d) ∧
    applyOperation H (.prepend d) msg = .ok (d ++ msg) ∧
    applyOperation H .reverse msg = .ok msg.reverse ∧
    applyOperation H .hexlify msg = .ok (bytesToHexBytes msg) ∧
    (bytesToHexBytes msg).length = 2 * msg.length ∧
    (∀ c ∈ bytesToHexBytes msg, (48 ≤ c ∧ c ≤ 57) ∨ (97 ≤ c ∧ c ≤ 102)) ∧
    applyOperation H .sha256 msg = .ok (H.sha256 msg) ∧
    applyOperation H .sha1 msg = .ok (H.sha1 msg) ∧
    applyOperation H .ripemd160 msg = .ok (H.ripemd160 msg) ∧
    (∀ op : Operation, (∃ e, applyOperation H op msg = .error e) ↔
      op = .keccak256) := by
  refine ⟨rfl, rfl, rfl, rfl, bytesToHexBytes_length msg,
    bytesToHexBytes_alphabet msg hbytes, rfl, rfl, rfl, ?_⟩
  intro op
  constructor
  · rintro ⟨e, he⟩
    cases op <;> simp [applyOperation] at he ⊢
  · rintro rfl
    exact ⟨"Keccak256 is not supported", rfl⟩

/-- Claim C8 witness: the reference behaviour at a concrete message. -/
theorem applyOperation_reference_spec_witness :
    applyOperation trivialHashes .hexlify [0xab, 0xcd] =
      .ok [0x61, 0x62, 0x63, 0x64] := by
  have h := (applyOperation_reference_spec trivialHashes [0xab, 0xcd] []
    (by decide)).2.2.2.1
  rw [h]
  rfl

/-- Claim C9: when the tree has no pending attestation, `upgradeProof`
reports `alreadyComplete = true` with zero counters and no errors, and
returns the `OtsFile` unchanged in every field. -/
theorem upgradeProof_already_complete (cal : Calendar) (H : HashOracles)
    (ots : OtsFile) (h : hasPendingTS ots.timestamp = false) :
    upgradeProof cal H ots = (ots, ⟨0, 0, [], true⟩) := by
  unfold upgradeProof
  rw [h]
  simp

/-- Claim C9 witness: a proof holding a single Bitcoin attestation is
already complete and untouched by `upgradeProof`. -/
theorem upgradeProof_already_complete_witness :
    upgradeProof nullCalendar trivialHashes
      ⟨.sha256, List.replicate 32 0, .mk [.bitcoin 100000] []⟩ =
      (⟨.sha256, List.replicate 32 0, .mk [.bitcoin 100000] []⟩,
        ⟨0, 0, [], true⟩) :=
  upgradeProof_already_complete nullCalendar trivialHashes _ rfl

/-- Claim C10: a Bitcoin/Litecoin/Ethereum attestation whose varbytes
payload is a valid varuint followed by arbitrary trailing bytes is
accepted, yielding the height decoded from the varuint prefix (the
trailing bytes are discarded); `writeAttestation` re-serializes such
an attestation with the minimal varuint as the whole payload. -/
theorem parseAttestation_trailing_bytes (h : Nat) (vb extra rest : Bytes)
    (hvb : readVaruint vb = .ok (h, []))
    (hlen : (vb ++ extra).length ≤ 1048576) :
    parseAttestation (ATT_TAG_BITCOIN ++ (writeVarbytes (vb ++ extra) ++ rest)) =
      .ok (.bitcoin h, rest) ∧
    parseAttestation (ATT_TAG_LITECOIN ++ (writeVarbytes (vb ++ extra) ++ rest)) =
      .ok (.litecoin h, rest) ∧
    parseAttestation (ATT_TAG_ETHEREUM ++ (writeVarbytes (vb ++ extra) ++ rest)) =
      .ok (.ethereum h, rest) ∧
    writeAttestation (.bitcoin h) =
      TAG_ATTESTATION :: (ATT_TAG_BITCOIN ++ writeVarbytes (writeVaruint h)) ∧
    writeAttestation (.litecoin h) =
      TAG_ATTESTATION :: (ATT_TAG_LITECOIN ++ writeVarbytes (writeVaruint h)) ∧
    writeAttestation (.ethereum h) =
      TAG_ATTESTATION :: (ATT_TAG_ETHEREUM ++ writeVarbytes (writeVaruint h)) := by
  have hvaru : varuintFromSlice (vb ++ extra) = .ok h := by
    unfold varuintFromSlice
    rw [show readVaruint (vb ++ extra) = .ok (h, [] ++ extra) from
      readVaruint_frame vb h [] extra hvb]
  have hvarb : ∀ r : Bytes, readVarbytes (writeVarbytes (vb ++ extra) ++ r) =
      .ok (vb ++ extra, r) := by
    intro r
    unfold readVarbytes writeVarbytes
    rw [List.append_assoc,
      readVaruint_writeVaruint (vb ++ extra).length
        (by omega : (vb ++ extra).length < 2 ^ 53) ((vb ++ extra) ++ r)]
    simp only
    rw [if_neg (by omega), readBytesE_append_of_length _ _ _ rfl]
  refine ⟨?_, ?_, ?_, rfl, rfl, rfl⟩
  · unfold parseAttestation
    rw [readBytesE_append_of_length 8 ATT_TAG_BITCOIN _ rfl]
    simp only
    rw [hvarb rest]
    simp only
    rw [if_pos (by decide), hvaru]
  · unfold parseAttestation
    rw [readBytesE_append_of_length 8 ATT_TAG_LITECOIN _ rfl]
    simp only
    rw [hvarb rest]
    simp only
    rw [if_neg (by decide), if_pos (by decide), hvaru]
  · unfold parseAttestation
    rw [readBytesE_append_of_length 8 ATT_TAG_ETHEREUM _ rfl]
    simp only
    rw [hvarb rest]
    simp only
    rw [if_neg (by decide), if_neg (by decide), if_pos (by decide), hvaru]

/-- Claim C10 witness: height 358391 with two trailing junk bytes
parses back to `Bitcoin(358391)`. -/
theorem parseAttestation_trailing_bytes_witness :
    parseAttestation
      (ATT_TAG_BITCOIN ++ (writeVarbytes (writeVaruint 358391 ++ [0xde, 0xad]) ++ [])) =
      .ok (.bitcoin 358391, []) :=
  (parseAttestation_trailing_bytes 358391 (writeVaruint 358391) [0xde, 0xad] []
    (by rfl) (by decide)).1

/-! ## Structural induction over the nested Timestamp tree -/

theorem Timestamp.indAux (motive : Timestamp → Prop)
    (h : ∀ atts ops, (∀ op child, (op, child) ∈ ops → motive child) →
      motive (.mk atts ops)) :
    ∀ (n : Nat) (ts : Timestamp), sizeOf ts ≤ n → motive ts := by
  intro n
  induction n with
  | zero =>
    intro ts hle
    cases ts with
    | mk atts ops => simp at hle
  | succ n ih =>
    intro ts hle
    cases ts with
    | mk atts ops =>
      apply h
      intro op child hmem
      apply ih
      have h2 := List.sizeOf_lt_of_mem hmem
      have h3 : sizeOf (Timestamp.mk atts ops) = 1 + sizeOf atts + sizeOf ops := by
        simp
      have h4 : sizeOf (op, child) = 1 + sizeOf op + sizeOf child := by simp
      omega

/-- Structural strong induction for `Timestamp`, with the inductive
hypothesis available at every continuation child. -/
theorem Timestamp.strongInd (motive : Timestamp → Prop)
    (h : ∀ atts ops, (∀ op child, (op, child) ∈ ops → motive child) →
      motive (.mk atts ops)) (ts : Timestamp) : motive ts :=
  Timestamp.indAux motive h (sizeOf ts) ts le_rfl

/-! ## Depth-first verification order (C4) -/

mutual

/-- No operation in the tree is Keccak256, i.e. every operation
application in a walk succeeds. -/
def noKeccakTS : Timestamp → Bool
  | .mk _ ops => noKeccakList ops

def noKeccakList : List (Operation × Timestamp) → Bool
  | [] => true
  | (op, child) :: rest =>
    !decide (op = Operation.keccak256) && noKeccakTS child && noKeccakList rest

end

mutual

/-- Height of the continuation nesting: the largest depth increment a
walker starting at this node can reach. -/
def depthTS : Timestamp → Nat
  | .mk _ ops => depthList ops

def depthList : List (Operation × Timestamp) → Nat
  | [] => 0
  | (_, child) :: rest => max (1 + depthTS child) (depthList rest)

end

/-- The value of a successful `applyOperation` (junk on Keccak256,
which never occurs under `noKeccakTS`). -/
def applyOpOk (H : HashOracles) (op : Operation) (msg : Bytes) : Bytes :=
  match applyOperation H op msg with
  | .ok m => m
  | .error _ => []

mutual

/-- The specified depth-first visit order: the `(attestation, message)`
pairs of the tree, attestations of a node before its continuations,
continuations in stored order, the message evolving by operation
application. -/
def dfAttMsgs (H : HashOracles) : Timestamp → Bytes → List (Attestation × Bytes)
  | .mk atts ops, msg =>
    atts.map (fun a => (a, msg)) ++ dfAttMsgsList H ops msg

def dfAttMsgsList (H : HashOracles) :
    List (Operation × Timestamp) → Bytes → List (Attestation × Bytes)
  | [], _ => []
  | (op, child) :: rest, msg =>
    dfAttMsgs H child (applyOpOk H op msg) ++ dfAttMsgsList H rest msg

end

theorem applyOperation_ok_of_ne_keccak (H : HashOracles) (op : Operation)
    (msg : Bytes) (h : op ≠ .keccak256) :
    applyOperation H op msg = .ok (applyOpOk H op msg) := by
  cases op <;> simp [applyOperation, applyOpOk] at h ⊢

theorem dfAttMsgs_length (H : HashOracles) :
    ∀ ts msg, (dfAttMsgs H ts msg).length = countAttestations ts := by
  intro ts
  induction ts using Timestamp.strongInd with
  | h atts ops ih =>
    intro msg
    have hlist : ∀ (l : List (Operation × Timestamp)),
        (∀ op child, (op, child) ∈ l →
          ∀ m, (dfAttMsgs H child m).length = countAttestations child) →
        ∀ m, (dfAttMsgsList H l m).length = countAttestationsList l := by
      intro l
      induction l with
      | nil => intro _ _; rfl
      | cons hd tl ihl =>
        intro hmem m
        obtain ⟨op, child⟩ := hd
        simp only [dfAttMsgsList, countAttestationsList, List.length_append]
        rw [hmem op child (by simp) _,
          ihl (fun o c hc m2 => hmem o c (by simp [hc]) m2) m]
    simp only [dfAttMsgs, countAttestations, List.length_append, List.length_map]
    rw [hlist ops (fun o c hc m2 => ih o c hc m2)]

/-- Claim C4: on a parsed tree in which every operation application
succeeds (no Keccak256) and whose nesting stays within the 256 depth
cap, `verifyFile`'s walker returns exactly one result per attestation
— each obtained from `checkAttestation` (Verified/Failed/in-band error
for Bitcoin depending on the block oracle, Pending for pending,
Skipped for Litecoin/Ethereum/Unknown) — in depth-first order with a
node's attestation results before its continuations' results, never
throwing; in particular the result count equals the attestation
count. -/
theorem walkTimestamp_per_attestation (B : BlockOracle) (H : HashOracles)
    (ts : Timestamp) (msg : Bytes)
    (hk : noKeccakTS ts = true) (hdep : depthTS ts ≤ 256) :
    walkTimestamp B H ts msg 0 =
      (dfAttMsgs H ts msg).map (fun p => checkAttestation B p.2 p.1) ∧
    (walkTimestamp B H ts msg 0).length = countAttestations ts := by
  have main : ∀ ts2 : Timestamp, noKeccakTS ts2 = true →
      ∀ (msg2 : Bytes) (depth : Nat), depth + depthTS ts2 ≤ 256 →
      walkTimestamp B H ts2 msg2 depth =
        (dfAttMsgs H ts2 msg2).map (fun p => checkAttestation B p.2 p.1) := by
    intro ts2
    induction ts2 using Timestamp.strongInd with
    | h atts ops ih =>
      intro hk2 msg2 depth hdep2
      have hlist : ∀ (l : List (Operation × Timestamp)),
          (∀ op child, (op, child) ∈ l → noKeccakTS child = true →
            ∀ (m : Bytes) (d : Nat), d + depthTS child ≤ 256 →
            walkTimestamp B H child m d =
              (dfAttMsgs H child m).map (fun p => checkAttestation B p.2 p.1)) →
          noKeccakList l = true → depth + depthList l ≤ 256 →
          walkOps B H l msg2 depth =
            (dfAttMsgsList H l msg2).map (fun p => checkAttestation B p.2 p.1) := by
        intro l
        induction l with
        | nil => intro _ _ _; rfl
        | cons hd tl ihl =>
          intro hmem hkl hdl
          obtain ⟨op, child⟩ := hd
          simp only [noKeccakList, Bool.and_eq_true, Bool.not_eq_true',
            decide_eq_false_iff_not] at hkl
          obtain ⟨⟨hop, hchild⟩, htl⟩ := hkl
          simp only [depthList] at hdl
          simp only [walkOps, dfAttMsgsList, List.map_append]
          rw [applyOperation_ok_of_ne_keccak H op msg2 hop]
          simp only
          rw [hmem op child (by simp) hchild _ (depth + 1) (by omega),
            ihl (fun o c hc => hmem o c (by simp [hc])) htl (by omega)]
      cases hops : ops with
      | nil =>
        subst hops
        simp only [noKeccakTS] at hk2
        simp only [depthTS] at hdep2
        simp only [walkTimestamp, dfAttMsgs]
        rw [if_neg (by simp only [MAX_DEPTH]; omega)]
        simp only [List.map_append, List.map_map]
        rw [hlist [] (by intro o c hc; simp at hc) hk2 (by simpa using hdep2)]
        rfl
      | cons hd tl =>
        subst hops
        simp only [noKeccakTS] at hk2
        simp only [depthTS] at hdep2
        simp only [walkTimestamp, dfAttMsgs]
        rw [if_neg (by simp only [MAX_DEPTH]; omega)]
        simp only [List.map_append, List.map_map]
        rw [hlist (hd :: tl) (fun o c hc => ih o c hc) hk2 hdep2]
        rfl
  refine ⟨main ts hk msg 0 (by omega), ?_⟩
  rw [main ts hk msg 0 (by omega), List.length_map, dfAttMsgs_length]

/-- Claim C4 witness: a two-level tree with a pending and a Bitcoin
attestation, walked with an offline block oracle. -/
theorem walkTimestamp_per_attestation_witness :
    walkTimestamp offlineBlocks trivialHashes
      (.mk [.pending sampleUri] [(.sha256, .mk [.bitcoin 358391] [])])
      (List.replicate 32 0) 0 =
      [.pending sampleUri,
       .errorResult "Could not fetch Bitcoin block: Network error"] := by
  have h := (walkTimestamp_per_attestation offlineBlocks trivialHashes
    (.mk [.pending sampleUri] [(.sha256, .mk [.bitcoin 358391] [])])
    (List.replicate 32 0) (by rfl) (by decide)).1
  rw [h]
  rfl

/-! ## Upgrade mutation discipline (C5) -/

/-- The attestation list a single attestation is replaced by during
upgrade: a pending attestation the calendar completes contributes the
sub-tree's attestations; everything else is retained. -/
def upgradeReplacementAtts (cal : Calendar) (msg : Bytes) (a : Attestation) :
    List Attestation :=
  match a with
  | .pending uri =>
    match fetchUpgrade cal uri msg with
    | .ok (some sub) => sub.attestations
    | _ => [a]
  | _ => [a]

/-- The continuations a single attestation appends to its node during
upgrade: a pending attestation the calendar completes contributes the
sub-tree's continuations; everything else contributes none. -/
def upgradeNewOps (cal : Calendar) (msg : Bytes) (a : Attestation) :
    List (Operation × Timestamp) :=
  match a with
  | .pending uri =>
    match fetchUpgrade cal uri msg with
    | .ok (some sub) => sub.ops
    | _ => []
  | _ => []

theorem processAttestations_fst (cal : Calendar) (msg : Bytes) :
    ∀ (atts : List Attestation) (res : UpgradeResult),
    (processAttestations cal msg atts res).1 =
      atts.flatMap (upgradeReplacementAtts cal msg) := by
  intro atts
  induction atts with
  | nil => intro res; rfl
  | cons a rest ih =>
    intro res
    cases a with
    | pending uri =>
      simp only [processAttestations, upgradeReplacementAtts, List.flatMap_cons]
      cases hf : fetchUpgrade cal uri msg with
      | error e => simp [ih]
      | ok sub? =>
        cases sub? with
        | none => simp [ih]
        | some sub => simp [ih]
    | bitcoin h => simp [processAttestations, upgradeReplacementAtts, ih]
    | litecoin h => simp [processAttestations, upgradeReplacementAtts, ih]
    | ethereum h => simp [processAttestations, upgradeReplacementAtts, ih]
    | unknown t p => simp [processAttestations, upgradeReplacementAtts, ih]

theorem processAttestations_newOps (cal : Calendar) (msg : Bytes) :
    ∀ (atts : List Attestation) (res : UpgradeResult),
    (processAttestations cal msg atts res).2.1 =
      atts.flatMap (upgradeNewOps cal msg) := by
  intro atts
  induction atts with
  | nil => intro res; rfl
  | cons a rest ih =>
    intro res
    cases a with
    | pending uri =>
      simp only [processAttestations, upgradeNewOps, List.flatMap_cons]
      cases hf : fetchUpgrade cal uri msg with
      | error e => simp [ih]
      | ok sub? =>
        cases sub? with
        | none => simp [ih]
        | some sub => simp [ih]
    | bitcoin h => simp [processAttestations, upgradeNewOps, ih]
    | litecoin h => simp [processAttestations, upgradeNewOps, ih]
    | ethereum h => simp [processAttestations, upgradeNewOps, ih]
    | unknown t p => simp [processAttestations, upgradeNewOps, ih]

theorem upgradeChildren_length (cal : Calendar) (H : HashOracles) :
    ∀ (l : List (Operation × Timestamp)) (msg : Bytes) (res : UpgradeResult)
      (depth : Nat),
    (upgradeChildren cal H l msg res depth).1.length = l.length := by
  intro l
  induction l with
  | nil => intro msg res depth; rfl
  | cons hd tl ih =>
    intro msg res depth
    obtain ⟨op, child⟩ := hd
    simp only [upgradeChildren]
    cases happ : applyOperation H op msg with
    | ok newMsg => simp [ih]
    | error e => simp [ih]

theorem upgradeChildren_fst (cal : Calendar) (H : HashOracles) :
    ∀ (l : List (Operation × Timestamp)) (msg : Bytes) (res : UpgradeResult)
      (depth : Nat),
    (upgradeChildren cal H l msg res depth).1.map Prod.fst = l.map Prod.fst := by
  intro l
  induction l with
  | nil => intro msg res depth; rfl
  | cons hd tl ih =>
    intro msg res depth
    obtain ⟨op, child⟩ := hd
    simp only [upgradeChildren]
    cases happ : applyOperation H op msg with
    | ok newMsg => simp [ih]
    | error e => simp [ih]

/-- Claim C5: at every node reached within the depth cap, the upgrade
step (i) replaces each pending attestation the calendar completes by
the attestations of the returned sub-tree and retains every other
attestation, (ii) appends exactly the returned sub-trees'
continuations after the node's original continuations, verbatim — the
appended continuations are never recursed into — and (iii) recurses
only through the snapshot of the original continuation list: the
first `ops.length` entries of the result are produced by
`upgradeChildren` over the original `ops` (operations preserved
position by position), and everything after them is exactly the
appended list. -/
theorem upgradeTimestamp_snapshot_discipline (cal : Calendar) (H : HashOracles)
    (atts : List Attestation) (ops : List (Operation × Timestamp))
    (msg : Bytes) (res : UpgradeResult) (depth : Nat) (hdep : depth ≤ 256) :
    ((upgradeTimestamp cal H (.mk atts ops) msg res depth).1).attestations =
      atts.flatMap (upgradeReplacementAtts cal msg) ∧
    ((upgradeTimestamp cal H (.mk atts ops) msg res depth).1).ops =
      (upgradeChildren cal H ops msg
        (processAttestations cal msg atts res).2.2 depth).1 ++
        atts.flatMap (upgradeNewOps cal msg) ∧
    ((upgradeTimestamp cal H (.mk atts ops) msg res depth).1).ops.drop
        ops.length = atts.flatMap (upgradeNewOps cal msg) ∧
    ((upgradeTimestamp cal H (.mk atts ops) msg res depth).1).ops.take
        ops.length =
      (upgradeChildren cal H ops msg
        (processAttestations cal msg atts res).2.2 depth).1 ∧
    (((upgradeTimestamp cal H (.mk atts ops) msg res depth).1).ops.take
        ops.length).map Prod.fst = ops.map Prod.fst := by
  have hres : upgradeTimestamp cal H (.mk atts ops) msg res depth =
      (.mk (processAttestations cal msg atts res).1
        ((upgradeChildren cal H ops msg
          (processAttestations cal msg atts res).2.2 depth).1 ++
          (processAttestations cal msg atts res).2.1),
        (upgradeChildren cal H ops msg
          (processAttestations cal msg atts res).2.2 depth).2) := by
    rw [upgradeTimestamp]
    rw [if_neg (by simp only [MAX_DEPTH]; omega)]
  rw [hres]
  have hlen := upgradeChildren_length cal H ops msg
    (processAttestations cal msg atts res).2.2 depth
  refine ⟨processAttestations_fst cal msg atts res, ?_, ?_, ?_, ?_⟩
  · simp only [Timestamp.ops]
    rw [processAttestations_newOps]
  · simp only [Timestamp.ops]
    rw [← hlen, List.drop_left, processAttestations_newOps]
  · simp only [Timestamp.ops]
    rw [← hlen, List.take_left]
  · simp only [Timestamp.ops]
    rw [← hlen, List.take_left, upgradeChildren_fst]

/-- Claim C5 witness: the discipline at a node holding one pending
attestation (calendar answers 404) and one continuation. -/
theorem upgradeTimestamp_snapshot_discipline_witness :
    ((upgradeTimestamp nullCalendar trivialHashes
      (.mk [.pending sampleUri] [(.reverse, .mk [.bitcoin 1] [])])
      (List.replicate 32 0) ⟨0, 0, [], false⟩ 0).1).attestations =
      [.pending sampleUri] :=
  by
    have h := (upgradeTimestamp_snapshot_discipline nullCalendar trivialHashes
      [.pending sampleUri] [(.reverse, .mk [.bitcoin 1] [])]
      (List.replicate 32 0) ⟨0, 0, [], false⟩ 0 (by omega)).1
    rw [h]
    rfl

/-! ## Stamp assembly (C6) -/

mutual

/-- Number of pending attestations reachable by tree traversal. -/
def countPendingTS : Timestamp → Nat
  | .mk atts ops =>
    atts.countP (fun a => match a with | .pending _ => true | _ => false) +
      countPendingList ops

def countPendingList : List (Operation × Timestamp) → Nat
  | [] => 0
  | (_, child) :: rest => countPendingTS child + countPendingList rest

end

/-- `p` is the serialization of a single attestation branch: the
`0x00` marker followed by a body that `parseAttestation` consumes
entirely, yielding `a`. -/
def AttBranchBytes (p : Bytes) (a : Attestation) : Prop :=
  ∃ body, p = TAG_ATTESTATION :: body ∧ parseAttestation body = .ok (a, [])

theorem readVarbytes_writeVarbytes (p r : Bytes) (hp : p.length ≤ 1048576) :
    readVarbytes (writeVarbytes p ++ r) = .ok (p, r) := by
  unfold readVarbytes writeVarbytes
  rw [List.append_assoc, readVaruint_writeVaruint p.length (by omega) (p ++ r)]
  simp only
  rw [if_neg (by omega), readBytesE_append_of_length _ _ _ rfl]

theorem Forall₂_attBranch_ne (rs : List Bytes) (as2 : List Attestation)
    (h : List.Forall₂ AttBranchBytes rs as2) : ∀ r ∈ rs, r ≠ [] := by
  induction h with
  | nil => simp
  | cons hhead htail ih =>
    intro r hr
    rcases List.mem_cons.mp hr with hr | hr
    · subst hr
      obtain ⟨body, hrb, _⟩ := hhead
      simp [hrb]
    · exact ih r hr

theorem forkJoin_length_ge (rs : List Bytes) (h : ∀ r ∈ rs, r ≠ []) :
    rs ≠ [] → rs.length ≤ (forkJoin rs).length := by
  induction rs with
  | nil => intro hne; exact absurd rfl hne
  | cons r rs' ih =>
    intro _
    cases rs' with
    | nil =>
      have hr : r ≠ [] := h r (by simp)
      simp only [forkJoin, List.dropLast_single, List.flatMap_nil,
        List.getLast?_singleton, Option.getD_some, List.nil_append,
        List.length_cons, List.length_nil]
      cases r with
      | nil => exact absurd rfl hr
      | cons b t => simp
    | cons r2 rs'' =>
      have hfj : forkJoin (r :: r2 :: rs'') =
          (TAG_FORK :: r) ++ forkJoin (r2 :: rs'') := by
        simp [forkJoin, List.flatMap_cons, List.append_assoc]
      rw [hfj]
      have := ih (fun x hx => h x (by simp [hx])) (by simp)
      simp only [List.length_append, List.length_cons] at this ⊢
      omega

/-- The leaf of the stamped tree: `(k-1)` fork markers interleaving
`k` single-attestation branches parse to a node holding exactly those
attestations. -/
theorem parseTS_att_forks :
    ∀ (rs : List Bytes) (as2 : List Attestation),
    List.Forall₂ AttBranchBytes rs as2 → rs ≠ [] →
    ∀ (fuel depth : Nat) (atts : List Attestation)
      (ops : List (Operation × Timestamp)),
    depth ≤ 256 → rs.length + 1 ≤ fuel →
    parseTS fuel (forkJoin rs) depth atts ops = .ok (.mk (atts ++ as2) ops, []) := by
  intro rs
  induction rs with
  | nil => intro as2 _ hne; exact absurd rfl hne
  | cons r rs' ih =>
    intro as2 hf hne fuel depth atts ops hdep hfuel
    cases hf with
    | cons hhead htail =>
      rename_i a as'
      obtain ⟨body, hrb, hparse⟩ := hhead
      cases rs' with
      | nil =>
        cases htail
        have hfj : forkJoin [r] = r := by
          simp [forkJoin]
        rw [hfj, hrb]
        cases fuel with
        | zero => omega
        | succ f =>
          simp only [parseTS]
          rw [if_neg (by simp only [MAX_DEPTH]; omega)]
          simp [hparse, TAG_ATTESTATION, TAG_FORK]
      | cons r2 rs'' =>
        have hfj : forkJoin (r :: r2 :: rs'') =
            TAG_FORK :: (r ++ forkJoin (r2 :: rs'')) := by
          simp [forkJoin, List.flatMap_cons, List.append_assoc]
        rw [hfj, hrb]
        cases fuel with
        | zero => omega
        | succ f =>
          simp only [parseTS, List.cons_append]
          rw [if_neg (by simp only [MAX_DEPTH]; omega)]
          rw [show parseAttestation (body ++ forkJoin (r2 :: rs'')) =
            .ok (a, [] ++ forkJoin (r2 :: rs'')) from
            parseAttestation_frame body a [] _ hparse]
          simp only [List.nil_append]
          rw [ih as' htail (by simp) f depth (atts ++ [a]) ops hdep
            (by simp only [List.length_cons] at hfuel ⊢; omega)]
          simp [List.append_assoc]

/-- The timestamp region of a stamped file: `Prepend(nonce)` then
`Sha256` then the responses as sibling branches. -/
theorem parseTS_stamp_chain (nonce : Bytes) (rs : List Bytes)
    (as2 : List Attestation) (hnonce : nonce.length ≤ 1048576)
    (hrs : List.Forall₂ AttBranchBytes rs as2) (hne : rs ≠ []) :
    ∀ fuel, rs.length + 3 ≤ fuel →
    parseTS fuel
      (TAG_PREPEND :: (writeVarbytes nonce ++ TAG_SHA256 :: forkJoin rs))
      0 [] [] =
      .ok (.mk [] [(.prepend nonce, .mk [] [(.sha256, .mk as2 [])])], []) := by
  intro fuel hfuel
  have hop : parseOperation
      (TAG_PREPEND :: (writeVarbytes nonce ++ TAG_SHA256 :: forkJoin rs)) =
      .ok (.prepend nonce, TAG_SHA256 :: forkJoin rs) := by
    simp [parseOperation, readByteE, TAG_APPEND, TAG_PREPEND,
      readVarbytes_writeVarbytes nonce (TAG_SHA256 :: forkJoin rs) hnonce]
  have hop2 : parseOperation (TAG_SHA256 :: forkJoin rs) =
      .ok (.sha256, forkJoin rs) := rfl
  cases fuel with
  | zero => omega
  | succ f =>
    simp only [parseTS]
    rw [if_neg (by simp only [MAX_DEPTH]; omega)]
    rw [if_neg (by simp only [TAG_PREPEND, TAG_FORK]; omega)]
    rw [if_neg (by simp only [TAG_PREPEND, TAG_ATTESTATION]; omega)]
    rw [hop]
    simp only
    cases f with
    | zero => omega
    | succ f2 =>
      simp only [parseTS]
      rw [if_neg (by simp only [MAX_DEPTH]; omega)]
      rw [if_neg (by simp only [TAG_SHA256, TAG_FORK]; omega)]
      rw [if_neg (by simp only [TAG_SHA256, TAG_ATTESTATION]; omega)]
      rw [hop2]
      simp only
      rw [parseTS_att_forks rs as2 hrs hne f2 2 [] [] (by omega) (by omega)]
      simp

/-- Claim C6 (counterexample): a calendar response that is itself a
well-formed two-branch Timestamp (first conjunct: it parses on its
own) makes the assembled stamp bytes unparseable when it is not the
last response — the embedded fork marker is read as an operation tag. -/
theorem stampAssemble_multibranch_fails :
    parseTimestampFromBytes
      (TAG_FORK :: ((TAG_ATTESTATION :: ATT_TAG_PENDING ++ 18 :: 17 :: sampleUri) ++
        (TAG_ATTESTATION :: ATT_TAG_PENDING ++ 18 :: 17 :: sampleUri))) =
      .ok (.mk [.pending sampleUri, .pending sampleUri] []) ∧
    parseOts (stampAssemble (List.replicate 32 0xaa) (List.replicate 16 0)
      [TAG_FORK :: ((TAG_ATTESTATION :: ATT_TAG_PENDING ++ 18 :: 17 :: sampleUri) ++
        (TAG_ATTESTATION :: ATT_TAG_PENDING ++ 18 :: 17 :: sampleUri)),
       TAG_ATTESTATION :: ATT_TAG_PENDING ++ 18 :: 17 :: sampleUri]) =
      .error "Unknown operation tag" :=
  ⟨rfl, rfl⟩

/-- Claim C6 (amended): for every 32-byte digest, every nonce within
the varbytes cap, and every non-empty list of responses each of which
serializes a single attestation branch, the bytes assembled by
`stampHash` parse to an `OtsFile` with hash op SHA-256, file digest
equal to the input digest, and the single continuation chain
`Prepend(nonce) → Sha256` ending in a leaf holding exactly the
responses' attestations as sibling branches; the pending count of the
parsed tree equals the number of pending responses (2 in the
two-server scenario). -/
theorem stampAssemble_parse_spec (fileDigest nonce : Bytes) (rs : List Bytes)
    (as2 : List Attestation) (hd : fileDigest.length = 32)
    (hnonce : nonce.length ≤ 1048576)
    (hrs : List.Forall₂ AttBranchBytes rs as2) (hne : rs ≠ []) :
    parseOts (stampAssemble fileDigest nonce rs) =
      .ok ⟨.sha256, fileDigest,
        .mk [] [(.prepend nonce, .mk [] [(.sha256, .mk as2 [])])]⟩ ∧
    countPendingTS
      (.mk [] [(.prepend nonce, .mk [] [(.sha256, .mk as2 [])])]) =
      as2.countP (fun a => match a with | .pending _ => true | _ => false) := by
  constructor
  · have hrne := Forall₂_attBranch_ne rs as2 hrs
    have hfjlen := forkJoin_length_ge rs hrne hne
    unfold parseOts stampAssemble
    simp only [List.append_assoc, List.cons_append]
    rw [readBytesE_append HEADER_MAGIC _]
    simp only
    rw [if_neg (by decide)]
    rw [readVaruint_writeVaruint 1 (by norm_num) _]
    simp only
    rw [if_neg (by simp)]
    rw [show ∀ Y : Bytes, readByteE (HASH_OP_TO_TAG .sha256 :: Y) =
      .ok (HASH_OP_TO_TAG .sha256, Y) from fun _ => rfl]
    simp only
    rw [show parseHashOp (HASH_OP_TO_TAG .sha256) = .ok .sha256 from rfl]
    simp only
    rw [readBytesE_append_of_length (HASH_OP_DIGEST_LEN .sha256) fileDigest _
      (by rw [hd]; rfl)]
    simp only
    unfold parseTimestamp
    rw [parseTS_stamp_chain nonce rs as2 hnonce hrs hne _
      (by
        simp only [List.length_cons, List.length_append]
        omega)]
  · simp [countPendingTS, countPendingList]

/-- Claim C6 witness: two servers each answering with a minimal
pending sub-tree yield a parseable file with exactly 2 pending
attestations reachable by traversal. -/
theorem stampAssemble_parse_spec_witness :
    parseOts (stampAssemble (List.replicate 32 0xaa) (List.replicate 16 0)
      [TAG_ATTESTATION :: ATT_TAG_PENDING ++ 18 :: 17 :: sampleUri,
       TAG_ATTESTATION :: ATT_TAG_PENDING ++ 18 :: 17 :: sampleUri]) =
      .ok ⟨.sha256, List.replicate 32 0xaa,
        .mk [] [(.prepend (List.replicate 16 0),
          .mk [] [(.sha256,
            .mk [.pending sampleUri, .pending sampleUri] [])])]⟩ ∧
    countPendingTS
      (.mk [] [(.prepend (List.replicate 16 0),
        .mk [] [(.sha256,
          .mk [.pending sampleUri, .pending sampleUri] [])])]) = 2 := by
  have h := stampAssemble_parse_spec (List.replicate 32 0xaa)
    (List.replicate 16 0)
    [TAG_ATTESTATION :: ATT_TAG_PENDING ++ 18 :: 17 :: sampleUri,
     TAG_ATTESTATION :: ATT_TAG_PENDING ++ 18 :: 17 :: sampleUri]
    [.pending sampleUri, .pending sampleUri]
    (by decide) (by decide)
    (.cons ⟨ATT_TAG_PENDING ++ 18 :: 17 :: sampleUri, rfl, rfl⟩
      (.cons ⟨ATT_TAG_PENDING ++ 18 :: 17 :: sampleUri, rfl, rfl⟩ .nil))
    (by simp)
  exact ⟨h.1, by rw [h.2]; rfl⟩

end Zeit

